import Mathlib

/-!
Verification development for the `ha-chan-agent` Discord bot
(`src/main.py`).  Python strings are modelled as lists of Unicode
characters (`PyStr`), so `len` is `List.length` and slicing, joining and
containment are the corresponding list operations.  Machine behaviour that
the claims depend on (history iteration that may raise mid-stream,
swallowed exceptions) is modelled explicitly with an error-carrying
stream type.
-/

/-- A Python `str`: a sequence of Unicode code points. -/
abbrev PyStr : Type := List Char

/-- Embed a Lean string literal as a `PyStr`. -/
def pyof (s : String) : PyStr := s.data

/-- Length of a Python string (`len`). -/
def pyLen (s : PyStr) : Nat := List.length s

/-- Characters stripped by Python `str.strip()` with no argument
(ASCII whitespace; the exotic Unicode space classes never appear in the
strings this program manipulates). -/
def pyIsSpace (c : Char) : Bool :=
  c = ' ' || c = '\t' || c = '\n' || c = '\r' || c = '\x0b' || c = '\x0c'

/-- Python `str.strip()`: drop whitespace from both ends. -/
def pyStrip (s : PyStr) : PyStr :=
  ((List.dropWhile pyIsSpace s).reverse.dropWhile pyIsSpace).reverse

/-- Python `sep.join(parts)`. -/
def pyJoin (sep : PyStr) : List PyStr → PyStr
  | [] => []
  | [x] => x
  | x :: y :: xs => x ++ sep ++ pyJoin sep (y :: xs)

/-- The newline character inserted between packed lines. -/
def newlineChar : Char := '\n'

/-- `"\n".join(parts)`, the join used by `chunk_lines_into_fields`. -/
def joinNL (parts : List PyStr) : PyStr := pyJoin [newlineChar] parts

/-- Python `s.split(",")`-style splitting on a single character:
no merging of adjacent separators, `"" → [""]`. -/
def pySplitChar (c : Char) : PyStr → List PyStr
  | [] => [[]]
  | ch :: rest =>
    if ch = c then [] :: pySplitChar c rest
    else
      match pySplitChar c rest with
      | h :: t => (ch :: h) :: t
      | [] => [[ch]]

/-- Python `str.isdigit()` (restricted to ASCII digits, the only digits
that can denote a Discord id). -/
def pyIsDigitStr (s : PyStr) : Bool :=
  !List.isEmpty s && List.all s Char.isDigit

/-- Python `int(s)` on a digit string. -/
def pyToNat (s : PyStr) : Nat :=
  List.foldl (fun a c => 10 * a + (c.toNat - '0'.toNat)) 0 s

/-- Python `str.lower()` (ASCII case folding, which is what category
names in the tested scenarios use). -/
def pyLower (s : PyStr) : PyStr := List.map Char.toLower s

/-- Python `sub in hay` on strings: substring containment. -/
def pyContains (hay sub : PyStr) : Bool :=
  match hay with
  | [] => List.isEmpty sub
  | _ :: t => List.isPrefixOf sub hay || pyContains t sub

/-- Python `str(n)` for a nonnegative integer. -/
def pyOfNat (n : Nat) : PyStr := Nat.toDigits 10 n

/-! ### `chunk_lines_into_fields` (src/main.py lines 123-149) -/

/-- `EMBED_FIELD_LIMIT = 1024` (src/main.py line 123). -/
def EMBED_FIELD_LIMIT : Nat := 1024

/-- `EMBED_MAX_FIELDS = 25` (src/main.py line 124). -/
def EMBED_MAX_FIELDS : Nat := 25

/-- The field name `f"{field_name_prefix} {n}"`. -/
def chunkFieldName (pfx : PyStr) (n : Nat) : PyStr :=
  pfx ++ (' ' :: pyOfNat n)

/-- The loop of `chunk_lines_into_fields`: state is the emitted fields,
the current buffer `buf` and its running length `buf_len`. -/
def chunkAux (pfx : PyStr) : List PyStr → List (PyStr × PyStr) → List PyStr → Nat →
    List (PyStr × PyStr)
  | [], fields, buf, _ =>
    if List.isEmpty buf then fields
    else fields ++ [(chunkFieldName pfx (fields.length + 1), joinNL buf)]
  | l :: rest, fields, buf, bufLen =>
    let line := pyStrip l
    if List.isEmpty line then chunkAux pfx rest fields buf bufLen
    else
      let addLen := pyLen line + (if List.isEmpty buf then 0 else 1)
      if EMBED_FIELD_LIMIT < bufLen + addLen then
        chunkAux pfx rest
          (fields ++ [(chunkFieldName pfx (fields.length + 1), joinNL buf)])
          [line] (pyLen line)
      else
        chunkAux pfx rest fields (buf ++ [line]) (bufLen + addLen)

/-- `chunk_lines_into_fields(lines, field_name_prefix)`
(src/main.py lines 126-149). -/
def chunk_lines_into_fields (lines : List PyStr) (pfx : PyStr) :
    List (PyStr × PyStr) :=
  chunkAux pfx lines [] [] 0

/-- The non-blank trimmed input lines, in order: what the spec says the
chunks must jointly reproduce. -/
def stripNB (lines : List PyStr) : List PyStr :=
  List.filter (fun l => !List.isEmpty l) (List.map pyStrip lines)

/-! ### Messages, channels, threads

`channel.history(...)` is an async iterator: it yields some messages and
may then raise (`discord.Forbidden` on a permission failure,
`discord.HTTPException` on a transport failure); the `try` blocks in the
scanners wrap the whole iteration.  A history outcome is therefore either
a clean list of yielded messages or a yielded prefix followed by a raised
error. -/

/-- The two exception classes caught by the scanners. -/
inductive ApiError where
  | forbidden
  | httpError
deriving DecidableEq, Repr

/-- A fetched message: structured mention list (user ids), raw content,
jump URL.  Users compare by id, so the mention list is a list of ids. -/
structure Message where
  mentions : List Nat
  content : PyStr
  jump_url : PyStr
deriving DecidableEq, Repr

/-- Outcome of iterating `history(after=…, limit=…)`. -/
inductive HistoryStream where
  | ok (msgs : List Message)
  | err (pre : List Message) (e : ApiError)

/-- An active thread under a text channel (`channel.threads` yields only
active ones; `locked` is the flag tested by the thread scanner). -/
structure Thread where
  id : Nat
  locked : Bool
  history : Option Nat → Int → HistoryStream

/-- A text channel: its id, its active threads and its history. -/
structure Channel where
  id : Nat
  threads : List Thread
  history : Option Nat → Int → HistoryStream

/-- A category: id, display name, ordered text channels. -/
structure Category where
  id : Nat
  name : PyStr
  text_channels : List Channel

/-- The textual mention form `f"<@{user.id}>"`. -/
def mentionPlain (uid : Nat) : PyStr := pyof "<@" ++ pyOfNat uid ++ pyof ">"

/-- The textual mention form `f"<@!{user.id}>"`. -/
def mentionNick (uid : Nat) : PyStr := pyof "<@!" ++ pyOfNat uid ++ pyof ">"

/-! ### `_search_channel_for_mentions` (src/main.py lines 71-94) -/

/-- The loop body of `_search_channel_for_mentions` over the messages the
iterator yielded: `if user in msg.mentions: append; elif "<@id>" in
content or "<@!id>" in content: append`. -/
def collectChannelHits (uid : Nat) : List Message → List Message → List Message
  | hits, [] => hits
  | hits, m :: rest =>
    if uid ∈ m.mentions then collectChannelHits uid (hits ++ [m]) rest
    else if pyContains m.content (mentionPlain uid)
        || pyContains m.content (mentionNick uid) then
      collectChannelHits uid (hits ++ [m]) rest
    else collectChannelHits uid hits rest

/-- `_search_channel_for_mentions(channel, user, after_dt,
per_channel_limit)`: hits gathered before a raised error are kept (the
`try` wraps the iteration and `hits` is defined outside it); the two
caught exception classes are swallowed. -/
def search_channel_for_mentions (ch : Channel) (uid : Nat)
    (after_dt : Option Nat) (per_channel_limit : Int) : List Message :=
  match ch.history after_dt per_channel_limit with
  | .ok msgs => collectChannelHits uid [] msgs
  | .err pre _ => collectChannelHits uid [] pre

/-! ### `_search_active_threads_for_mentions` (src/main.py lines 97-120) -/

/-- The loop body over a thread's yielded messages:
`if user in msg.mentions or "<@id>" in content or "<@!id>" in content`. -/
def collectThreadHits (uid : Nat) : List Message → List Message → List Message
  | hits, [] => hits
  | hits, m :: rest =>
    if uid ∈ m.mentions || pyContains m.content (mentionPlain uid)
        || pyContains m.content (mentionNick uid) then
      collectThreadHits uid (hits ++ [m]) rest
    else collectThreadHits uid hits rest

/-- `_search_active_threads_for_mentions(channel, user, after_dt,
per_thread_limit)`: locked threads are skipped, a raised error inside a
thread's `try` discards that thread entirely (its partial `th_hits` is
local to the `try`), and only threads with at least one hit are kept. -/
def searchThreadsLoop (uid : Nat) (after_dt : Option Nat)
    (per_thread_limit : Int) : List Thread → List (Thread × List Message)
  | [] => []
  | th :: rest =>
    if th.locked then searchThreadsLoop uid after_dt per_thread_limit rest
    else
      match th.history after_dt per_thread_limit with
      | .ok msgs =>
        let th_hits := collectThreadHits uid [] msgs
        if List.isEmpty th_hits then searchThreadsLoop uid after_dt per_thread_limit rest
        else (th, th_hits) :: searchThreadsLoop uid after_dt per_thread_limit rest
      | .err _ _ => searchThreadsLoop uid after_dt per_thread_limit rest

/-- `_search_active_threads_for_mentions(channel, user, after_dt,
per_thread_limit)` (src/main.py lines 97-120). -/
def search_active_threads_for_mentions (ch : Channel) (uid : Nat)
    (after_dt : Option Nat) (per_thread_limit : Int) :
    List (Thread × List Message) :=
  searchThreadsLoop uid after_dt per_thread_limit ch.threads

/-! ### `_parse_category_spec` (src/main.py lines 40-69) -/

/-- A channel as seen by `guild.get_channel`: either a category or some
other (text/voice/…) channel, of which only the id matters here. -/
inductive GuildChannel where
  | category (c : Category)
  | other (id : Nat)

/-- The id of a guild channel. -/
def GuildChannel.gcId : GuildChannel → Nat
  | .category c => c.id
  | .other i => i

/-- A guild: its channels (Discord ids are globally unique, so lookup by
id has at most one result). -/
structure Guild where
  channels : List GuildChannel

/-- `guild.get_channel(i)`. -/
def Guild.get_channel (g : Guild) (i : Nat) : Option GuildChannel :=
  List.find? (fun c => c.gcId = i) g.channels

/-- `guild.categories`. -/
def Guild.categories (g : Guild) : List Category :=
  List.filterMap
    (fun c => match c with | .category c => some c | .other _ => none)
    g.channels

/-- `[p.strip() for p in spec.split(",") if p.strip()]`. -/
def specParts (spec : PyStr) : List PyStr :=
  List.filter (fun p => !List.isEmpty p) (List.map pyStrip (pySplitChar ',' spec))

/-- First pass of `_parse_category_spec`: purely numeric tokens resolved
through `guild.get_channel`, kept only when the hit is a category with an
unseen id. -/
def idPass (g : Guild) : List PyStr → List Nat → List Category →
    List Nat × List Category
  | [], seen, out => (seen, out)
  | p :: ps, seen, out =>
    if pyIsDigitStr p then
      match g.get_channel (pyToNat p) with
      | some (.category c) =>
        if seen.contains c.id then idPass g ps seen out
        else idPass g ps (seen ++ [c.id]) (out ++ [c])
      | _ => idPass g ps seen out
    else idPass g ps seen out

/-- Inner loop of the second pass: one non-numeric token matched
case-insensitively against every category (no break: every matching
unseen category is appended). -/
def namePassCats (p : PyStr) : List Category → List Nat → List Category →
    List Nat × List Category
  | [], seen, out => (seen, out)
  | c :: cs, seen, out =>
    if pyLower c.name = pyLower p && !seen.contains c.id then
      namePassCats p cs (seen ++ [c.id]) (out ++ [c])
    else namePassCats p cs seen out

/-- Second pass of `_parse_category_spec`: non-numeric tokens matched
against category names. -/
def namePass (g : Guild) : List PyStr → List Nat → List Category → List Category
  | [], _, out => out
  | p :: ps, seen, out =>
    if pyIsDigitStr p then namePass g ps seen out
    else
      let so := namePassCats p g.categories seen out
      namePass g ps so.1 so.2

/-- `_parse_category_spec(guild, spec)` (src/main.py lines 40-69). -/
def parse_category_spec (g : Guild) (spec : PyStr) : List Category :=
  if List.isEmpty spec then []
  else
    let parts := specParts spec
    let so := idPass g parts [] []
    namePass g parts so.1 so.2

/-! ### `find_collabs` result collection (src/main.py lines 200-238) -/

/-- `MAX_LINES = 40` (src/main.py line 204). -/
def MAX_LINES : Nat := 40

/-- `f"[link]({m.jump_url})"`. -/
def linkText (m : Message) : PyStr := pyof "[link](" ++ m.jump_url ++ pyof ")"

/-- `", ".join(f"[link]({m.jump_url})" for m in sample)`. -/
def sampleLinks (sample : List Message) : PyStr :=
  pyJoin (pyof ", ") (List.map linkText sample)

/-- `f"**Category:** {cat.name} (`{cat.id}`)"`. -/
def catHeaderLine (cat : Category) : PyStr :=
  pyof "**Category:** " ++ cat.name ++ pyof " (`" ++ pyOfNat cat.id ++ pyof "`)"

/-- The per-channel summary line (src/main.py line 221); the source file
stores the bullet, dash and ellipsis as the literal byte sequences
rendered here with `\u` escapes. -/
def channelLine (ch : Channel) (hits : List Message) : PyStr :=
  pyof "â€¢ <#" ++ pyOfNat ch.id ++
    pyof "> â€” " ++ pyOfNat hits.length ++
    pyof " mention(s): " ++ sampleLinks (hits.take 3) ++
    (if 3 < hits.length then pyof " â€¦" else [])

/-- The per-thread summary line (src/main.py line 231). -/
def threadLine (th : Thread) (th_msgs : List Message) : PyStr :=
  pyof "   â†³ ðŸ§µ <#" ++ pyOfNat th.id ++
    pyof "> â€” " ++ pyOfNat th_msgs.length ++
    pyof " mention(s): " ++ sampleLinks (th_msgs.take 3) ++
    (if 3 < th_msgs.length then pyof " â€¦" else [])

/-- `"_Output truncated; see attachment for the full list._"`
(src/main.py line 235). -/
def truncNote : PyStr :=
  pyof "_Output truncated; see attachment for the full list._"

/-- Accumulated `total_hits` and `lines` of `find_collabs`. -/
structure ScanState where
  totalHits : Nat
  lines : List PyStr
deriving DecidableEq

/-- The inner `for ch in cat.text_channels` loop of `find_collabs`
(lines 210-236).  Returns the updated state and whether the `break` on
line 236 fired.  `hAdded` is `cat_header_added`. -/
def scanChannels (uid : Nat) (after_dt : Option Nat) (per_channel_limit : Int)
    (include_threads : Bool) (cat : Category) :
    List Channel → ScanState → Bool → ScanState × Bool
  | [], st, _ => (st, false)
  | ch :: rest, st, hAdded =>
    let hits := search_channel_for_mentions ch uid after_dt per_channel_limit
    if List.isEmpty hits then
      scanChannels uid after_dt per_channel_limit include_threads cat rest st hAdded
    else
      let st1 : ScanState :=
        { totalHits := st.totalHits + hits.length
          lines := st.lines ++ (if hAdded then [] else [catHeaderLine cat]) ++
            [channelLine ch hits] }
      let st2 : ScanState :=
        if include_threads then
          let th_res := search_active_threads_for_mentions ch uid after_dt
            (min per_channel_limit 100)
          { totalHits := st1.totalHits +
              (List.map (fun p => p.2.length) th_res).sum
            lines := st1.lines ++ List.map (fun p => threadLine p.1 p.2) th_res }
        else st1
      if MAX_LINES ≤ st2.lines.length then
        ({ st2 with lines := st2.lines ++ [truncNote] }, true)
      else
        scanChannels uid after_dt per_channel_limit include_threads cat rest st2 true

/-- The outer `for cat in target_categories` loop of `find_collabs`
(lines 206-238), including the `if len(lines) >= MAX_LINES: break`
check on line 237. -/
def scanCats (uid : Nat) (after_dt : Option Nat) (per_channel_limit : Int)
    (include_threads : Bool) : List Category → ScanState → ScanState
  | [], st => st
  | cat :: rest, st =>
    let sb := scanChannels uid after_dt per_channel_limit include_threads cat
      cat.text_channels st false
    if MAX_LINES ≤ sb.1.lines.length then sb.1
    else scanCats uid after_dt per_channel_limit include_threads rest sb.1

/-- The initial state of the collection loop (`total_hits = 0`,
`lines = []`). -/
def initialScanState : ScanState := { totalHits := 0, lines := [] }

/-! ### `find_collabs` reply construction (src/main.py lines 244-268) -/

/-- The note field added on the overflow path (line 263). -/
def overflowNoteValue : PyStr :=
  pyof "Output truncated in embed; see attached `mentions_report.txt` for the full list."

/-- The embed fields and the optional attachment text produced from
`lines`.  The attachment is `"\n".join(lines)` encoded as UTF-8;
since UTF-8 encoding followed by decoding is the identity on text, the
attachment is modelled by the text itself. -/
structure ReplyOut where
  fields : List (PyStr × PyStr)
  file : Option PyStr
deriving DecidableEq

/-- Lines 249-268 of `find_collabs`: chunk the lines with the prefix
`"Results"`; on `len(fields) >= EMBED_MAX_FIELDS` keep
`min(10, EMBED_MAX_FIELDS - 1)` fields, add the note field and attach
the full text. -/
def buildReply (lines : List PyStr) : ReplyOut :=
  let fields := chunk_lines_into_fields lines (pyof "Results")
  if EMBED_MAX_FIELDS ≤ fields.length then
    let full_text := joinNL lines
    let kept := min 10 (EMBED_MAX_FIELDS - 1)
    { fields := fields.take kept ++ [(pyof "Note", overflowNoteValue)]
      file := some full_text }
  else
    { fields := fields, file := none }

/-! ### `ask` response normalization (src/main.py lines 282-298) -/

/-- An exception message (opaque). -/
structure ApiErrorText where
  msg : PyStr

/-- The value bound to `structured` in `run_agent_call`: a pydantic
model (whose `model_dump()` either yields a field map or raises), a
plain `dict`, or anything else.  Each carries its `str(...)` rendering. -/
inductive Structured where
  | model (dump : Except ApiErrorText (List (PyStr × PyStr))) (str : PyStr)
  | dict (d : List (PyStr × PyStr)) (str : PyStr)
  | other (str : PyStr)

/-- What `run_agent_call` returns: a mapping or a plain string. -/
inductive AgentOutput where
  | mapping (d : List (PyStr × PyStr))
  | text (s : PyStr)
deriving DecidableEq

/-- The normalization in `run_agent_call` (lines 286-295): structured
model → `model_dump()`, dict → itself, anything else → `str(...)`;
the surrounding `try` turns a raised conversion error into
`str(structured)`. -/
def run_agent_call (structured : Structured) : AgentOutput :=
  match structured with
  | .model (.ok d) _ => .mapping d
  | .model (.error _) s => .text s
  | .dict d _ => .mapping d
  | .other s => .text s

/-! ## Theorems -/

/-- The mention predicate as the spec words it: the user appears in the
structured mention list, or the raw text contains `<@id>`, or it contains
`<@!id>`. -/
def mention_hit_spec (uid : Nat) (m : Message) : Bool :=
  decide (uid ∈ m.mentions) || pyContains m.content (mentionPlain uid)
    || pyContains m.content (mentionNick uid)

lemma collectChannelHits_acc (uid : Nat) :
    ∀ (msgs hits : List Message),
      collectChannelHits uid hits msgs =
        hits ++ List.filter (mention_hit_spec uid) msgs := by
  intro msgs
  induction msgs with
  | nil => intro hits; simp [collectChannelHits]
  | cons m rest ih =>
    intro hits
    by_cases h1 : uid ∈ m.mentions
    · simp [collectChannelHits, h1, ih, mention_hit_spec, List.filter_cons]
    · by_cases h2 : (pyContains m.content (mentionPlain uid)
          || pyContains m.content (mentionNick uid)) = true
      · simp [collectChannelHits, h1, h2, ih, mention_hit_spec, List.filter_cons,
          Bool.or_assoc]
      · simp only [Bool.or_eq_true, not_or] at h2
        simp [collectChannelHits, h1, h2.1, h2.2, ih, mention_hit_spec,
          List.filter_cons]

lemma collectThreadHits_acc (uid : Nat) :
    ∀ (msgs hits : List Message),
      collectThreadHits uid hits msgs =
        hits ++ List.filter (mention_hit_spec uid) msgs := by
  intro msgs
  induction msgs with
  | nil => intro hits; simp [collectThreadHits]
  | cons m rest ih =>
    intro hits
    by_cases h1 : (decide (uid ∈ m.mentions) || pyContains m.content (mentionPlain uid)
        || pyContains m.content (mentionNick uid)) = true
    · simp [collectThreadHits, h1, ih, mention_hit_spec, List.filter_cons]
    · simp [collectThreadHits, h1, ih, mention_hit_spec, List.filter_cons]

/-- C6: a message is kept by the per-channel scan's `if/elif` exactly when
the user is in the structured mention list or the raw text contains
`<@id>` or `<@!id>`, and the per-thread scan keeps messages by the very
same predicate. -/
theorem mention_predicate_characterization (uid : Nat) (msgs : List Message) :
    collectChannelHits uid [] msgs = List.filter (mention_hit_spec uid) msgs ∧
    collectThreadHits uid [] msgs = List.filter (mention_hit_spec uid) msgs := by
  constructor
  · simpa using collectChannelHits_acc uid msgs []
  · simpa using collectThreadHits_acc uid msgs []

/-- The per-thread scan as the spec words it: restricted to the active
threads, skipping locked ones entirely, dropping any thread whose history
raises, and returning only threads with at least one mention hit. -/
def search_active_threads_spec (ch : Channel) (uid : Nat)
    (after_dt : Option Nat) (per_thread_limit : Int) :
    List (Thread × List Message) :=
  List.filterMap
    (fun th =>
      if th.locked then none
      else
        match th.history after_dt per_thread_limit with
        | .ok msgs =>
          let hits := List.filter (mention_hit_spec uid) msgs
          if hits = [] then none else some (th, hits)
        | .err _ _ => none)
    ch.threads

lemma searchThreadsLoop_eq_spec (uid : Nat) (after_dt : Option Nat)
    (ptl : Int) (ths : List Thread) :
    searchThreadsLoop uid after_dt ptl ths =
      List.filterMap
        (fun th =>
          if th.locked then none
          else
            match th.history after_dt ptl with
            | .ok msgs =>
              let hits := List.filter (mention_hit_spec uid) msgs
              if hits = [] then none else some (th, hits)
            | .err _ _ => none)
        ths := by
  induction ths with
  | nil => simp [searchThreadsLoop]
  | cons th rest ih =>
    by_cases hl : th.locked
    · simp [searchThreadsLoop, hl, ih, List.filterMap_cons]
    · cases hh : th.history after_dt ptl with
      | ok msgs =>
        by_cases he : ∀ a ∈ msgs, ¬ mention_hit_spec uid a = true
        · have hf : List.filter (mention_hit_spec uid) msgs = [] :=
            List.filter_eq_nil_iff.mpr he
          simp [searchThreadsLoop, hl, hh, collectThreadHits_acc, hf, he, ih,
            List.filterMap_cons]
          rw [if_pos (by simpa using he)]
        · have hf : ¬ List.filter (mention_hit_spec uid) msgs = [] := by
            simpa [List.filter_eq_nil_iff] using he
          simp [searchThreadsLoop, hl, hh, collectThreadHits_acc, hf, he, ih,
            List.filterMap_cons]
          rw [if_neg (by simpa using he)]
      | err pre e =>
        simp [searchThreadsLoop, hl, hh, ih, List.filterMap_cons]

/-- C7: the per-thread scan coincides with its specification: locked
threads are skipped entirely; a thread whose history raises a permission
or transport error is dropped by itself (the remaining threads are still
scanned, as the pointwise `filterMap` form shows); and only threads with
at least one mention hit are returned. -/
theorem search_active_threads_characterization (ch : Channel) (uid : Nat)
    (after_dt : Option Nat) (per_thread_limit : Int) :
    search_active_threads_for_mentions ch uid after_dt per_thread_limit =
      search_active_threads_spec ch uid after_dt per_thread_limit := by
  unfold search_active_threads_for_mentions search_active_threads_spec
  exact searchThreadsLoop_eq_spec uid after_dt per_thread_limit ch.threads

/-- C8: response normalization in `ha-chat`: a structured model whose
conversion succeeds becomes its field map, a plain mapping passes
through, anything else is stringified, and a conversion failure yields
the stringified raw response instead of an error (the function is total:
no exception propagates). -/
theorem ask_normalization :
    (∀ d s, run_agent_call (.model (.ok d) s) = .mapping d) ∧
    (∀ d s, run_agent_call (.dict d s) = .mapping d) ∧
    (∀ s, run_agent_call (.other s) = .text s) ∧
    (∀ e s, run_agent_call (.model (.error e) s) = .text s) :=
  ⟨fun _ _ => rfl, fun _ _ => rfl, fun _ => rfl, fun _ _ => rfl⟩

/-- A single input line of 1025 characters (none of them whitespace). -/
def oversizedLine : PyStr := List.replicate 1025 'a'

set_option maxRecDepth 100000 in
/-- C1 (code bug): `chunk_lines_into_fields` promises `<=1024`-char field
values but, fed one 1025-character line, emits a field whose value is the
whole 1025-character line (after first flushing a spurious empty chunk):
packing never splits a line longer than the limit. -/
theorem chunk_lines_field_limit_violated :
    ¬ (∀ f ∈ chunk_lines_into_fields [oversizedLine] (pyof "Summary"),
        pyLen f.2 ≤ EMBED_FIELD_LIMIT) := by decide

lemma pyJoin_append (sep : PyStr) :
    ∀ (xs ys : List PyStr), xs ≠ [] → ys ≠ [] →
      pyJoin sep (xs ++ ys) = pyJoin sep xs ++ sep ++ pyJoin sep ys := by
  intro xs
  induction xs with
  | nil => intro ys h _; exact absurd rfl h
  | cons x xs ih =>
    intro ys _ hys
    cases xs with
    | nil =>
      cases ys with
      | nil => exact absurd rfl hys
      | cons y ys' => simp [pyJoin]
    | cons x' xs' =>
      have h2 := ih ys (by simp) hys
      simp only [List.cons_append] at h2 ⊢
      simp [pyJoin, h2, List.append_assoc]

lemma stripNB_cons (l : PyStr) (rest : List PyStr) :
    stripNB (l :: rest) =
      if List.isEmpty (pyStrip l) then stripNB rest
      else pyStrip l :: stripNB rest := by
  by_cases h : List.isEmpty (pyStrip l)
  · simp [stripNB, List.filter_cons, h]
  · simp [stripNB, List.filter_cons, h]

lemma chunkAux_join (pfx : PyStr) :
    ∀ (rest : List PyStr) (fields : List (PyStr × PyStr)) (buf : List PyStr)
      (bufLen : Nat), buf ≠ [] →
      joinNL (List.map Prod.snd (chunkAux pfx rest fields buf bufLen)) =
        (if fields = [] then []
          else joinNL (List.map Prod.snd fields) ++ [newlineChar]) ++
          joinNL (buf ++ stripNB rest) := by
  intro rest
  induction rest with
  | nil =>
    intro fields buf bufLen hbuf
    cases buf with
    | nil => exact absurd rfl hbuf
    | cons b bs =>
      rcases fields with _ | ⟨f, fs⟩
      · simp [chunkAux, joinNL, pyJoin, stripNB]
      · have h2 := pyJoin_append [newlineChar]
          (List.map Prod.snd (f :: fs)) [joinNL (b :: bs)] (by simp) (by simp)
        simp [chunkAux, stripNB, joinNL] at h2 ⊢
        simp [h2, pyJoin]
  | cons l rest ih =>
    intro fields buf bufLen hbuf
    rw [stripNB_cons]
    by_cases hblank : List.isEmpty (pyStrip l)
    · simp only [chunkAux, hblank, if_true]
      rw [ih fields buf bufLen hbuf]
    · simp only [chunkAux, hblank, if_false, Bool.false_eq_true]
      set s := pyStrip l with hs
      have hbe : List.isEmpty buf = false := by
        cases buf with
        | nil => exact absurd rfl hbuf
        | cons b bs => rfl
      simp only [hbe, Bool.false_eq_true, if_false]
      by_cases hover : EMBED_FIELD_LIMIT < bufLen + (pyLen s + 1)
      · rw [if_pos hover]
        rw [ih (fields ++ [(chunkFieldName pfx (fields.length + 1), joinNL buf)])
          [s] (pyLen s) (by simp)]
        have hsplit := pyJoin_append [newlineChar] buf (s :: stripNB rest)
          hbuf (by simp)
        rcases fields with _ | ⟨f, fs⟩
        · simp [joinNL] at hsplit ⊢
          simp [hsplit, pyJoin, List.append_assoc]
        · have h2 := pyJoin_append [newlineChar]
            (List.map Prod.snd (f :: fs)) [joinNL buf] (by simp) (by simp)
          simp [joinNL] at h2 hsplit ⊢
          simp [h2, hsplit, pyJoin, List.append_assoc]
      · rw [if_neg hover]
        rw [ih fields (buf ++ [s]) (bufLen + (pyLen s + 1)) (by simp)]
        simp [hblank, List.append_assoc]

lemma chunkAux_names (pfx : PyStr) :
    ∀ (rest : List PyStr) (fields : List (PyStr × PyStr)) (buf : List PyStr)
      (bufLen : Nat),
      List.map Prod.fst fields =
        List.map (fun i => chunkFieldName pfx (i + 1)) (List.range fields.length) →
      List.map Prod.fst (chunkAux pfx rest fields buf bufLen) =
        List.map (fun i => chunkFieldName pfx (i + 1))
          (List.range (chunkAux pfx rest fields buf bufLen).length) := by
  intro rest
  induction rest with
  | nil =>
    intro fields buf bufLen hf
    cases buf with
    | nil => simpa [chunkAux] using hf
    | cons b bs =>
      simp only [chunkAux, List.isEmpty_cons, Bool.false_eq_true, if_false]
      simp [List.range_succ, hf]
  | cons l rest ih =>
    intro fields buf bufLen hf
    by_cases hblank : List.isEmpty (pyStrip l)
    · simp only [chunkAux, hblank, if_true]
      exact ih fields buf bufLen hf
    · simp only [chunkAux, hblank, if_false, Bool.false_eq_true]
      by_cases hover : EMBED_FIELD_LIMIT <
          bufLen + (pyLen (pyStrip l) + if List.isEmpty buf then 0 else 1)
      · rw [if_pos hover]
        refine ih _ _ _ ?_
        simp [List.range_succ, hf]
      · rw [if_neg hover]
        exact ih fields _ _ hf

lemma chunkAux_ne_nil (pfx : PyStr) :
    ∀ (rest : List PyStr) (fields : List (PyStr × PyStr)) (buf : List PyStr)
      (bufLen : Nat), buf ≠ [] → chunkAux pfx rest fields buf bufLen ≠ [] := by
  intro rest
  induction rest with
  | nil =>
    intro fields buf bufLen hbuf
    cases buf with
    | nil => exact absurd rfl hbuf
    | cons b bs => simp [chunkAux]
  | cons l rest ih =>
    intro fields buf bufLen hbuf
    by_cases hblank : List.isEmpty (pyStrip l)
    · simp only [chunkAux, hblank, if_true]
      exact ih fields buf bufLen hbuf
    · simp only [chunkAux, hblank, if_false, Bool.false_eq_true]
      by_cases hover : EMBED_FIELD_LIMIT <
          bufLen + (pyLen (pyStrip l) + if List.isEmpty buf then 0 else 1)
      · rw [if_pos hover]
        exact ih _ _ _ (by simp)
      · rw [if_neg hover]
        exact ih _ _ _ (by simp)

lemma chunk_start_join (pfx : PyStr) :
    ∀ lines : List PyStr,
      pyLen ((stripNB lines).head?.getD []) ≤ EMBED_FIELD_LIMIT →
      joinNL (List.map Prod.snd (chunkAux pfx lines [] [] 0)) =
        joinNL (stripNB lines) := by
  intro lines
  induction lines with
  | nil => intro _; simp [chunkAux, stripNB, joinNL, pyJoin]
  | cons l rest ih =>
    intro hhead
    rw [stripNB_cons] at hhead ⊢
    by_cases hblank : List.isEmpty (pyStrip l)
    · simp only [chunkAux, hblank, if_true] at *
      exact ih hhead
    · simp only [hblank, if_false, Bool.false_eq_true] at hhead ⊢
      have hlen : pyLen (pyStrip l) ≤ EMBED_FIELD_LIMIT := by
        simpa using hhead
      simp only [chunkAux, hblank, if_false, Bool.false_eq_true,
        List.isEmpty_nil, if_true]
      have hnover : ¬ EMBED_FIELD_LIMIT < 0 + (pyLen (pyStrip l) + 0) := by
        omega
      rw [if_neg hnover]
      rw [chunkAux_join pfx rest [] ([] ++ [pyStrip l])
        (0 + (pyLen (pyStrip l) + 0)) (by simp)]
      simp

/-- `chunk_lines_into_fields` flushes a trailing partial chunk: whenever
some non-blank line exists, at least one field is emitted. -/
lemma chunk_start_ne (pfx : PyStr) :
    ∀ lines : List PyStr, stripNB lines ≠ [] →
      chunkAux pfx lines [] [] 0 ≠ [] := by
  intro lines
  induction lines with
  | nil => intro h; simp [stripNB] at h
  | cons l rest ih =>
    intro h
    rw [stripNB_cons] at h
    by_cases hblank : List.isEmpty (pyStrip l)
    · simp only [chunkAux, hblank, if_true] at *
      exact ih h
    · simp only [chunkAux, hblank, if_false, Bool.false_eq_true,
        List.isEmpty_nil, if_true]
      by_cases hover : EMBED_FIELD_LIMIT < 0 + (pyLen (pyStrip l) + 0)
      · rw [if_pos hover]
        exact chunkAux_ne_nil pfx rest _ _ _ (by simp)
      · rw [if_neg hover]
        exact chunkAux_ne_nil pfx rest _ _ _ (by simp)

/-- C4 (amended): provided the first non-blank trimmed line has at most
1024 characters, joining all chunk values with a newline reproduces
exactly the non-blank trimmed input lines in order (without that proviso
a spurious empty first chunk is emitted, see the counterexample); each
chunk is unconditionally named `"{prefix} {i}"` with `i` its 1-based
index; and the last partial chunk is unconditionally flushed: non-blank
input always yields at least one chunk. -/
theorem chunk_lines_reassembly (lines : List PyStr) (pfx : PyStr) :
    (pyLen ((stripNB lines).head?.getD []) ≤ EMBED_FIELD_LIMIT →
      joinNL (List.map Prod.snd (chunk_lines_into_fields lines pfx)) =
        joinNL (stripNB lines)) ∧
    List.map Prod.fst (chunk_lines_into_fields lines pfx) =
      List.map (fun i => chunkFieldName pfx (i + 1))
        (List.range (chunk_lines_into_fields lines pfx).length) ∧
    (stripNB lines ≠ [] → chunk_lines_into_fields lines pfx ≠ []) := by
  refine ⟨fun h => chunk_start_join pfx lines h, ?_, fun h => chunk_start_ne pfx lines h⟩
  exact chunkAux_names pfx lines [] [] 0 (by simp)

set_option maxRecDepth 100000 in
/-- C4 counterexample: on a single 1025-character line the concatenation
property of the claim fails as stated: the emitted chunk values joined by
newline carry a leading spurious newline from the empty first chunk. -/
theorem chunk_lines_reassembly_counterexample :
    joinNL (List.map Prod.snd
        (chunk_lines_into_fields [oversizedLine] (pyof "Results"))) ≠
      joinNL (stripNB [oversizedLine]) := by decide

/-- Witness for C4 at a concrete input. -/
theorem chunk_lines_reassembly_witness :
    joinNL (List.map Prod.snd (chunk_lines_into_fields
        [pyof "  hello  ", [], pyof "world"] (pyof "Summary"))) =
      joinNL (stripNB [pyof "  hello  ", [], pyof "world"]) ∧
    chunk_lines_into_fields [pyof "  hello  ", [], pyof "world"]
      (pyof "Summary") ≠ [] := by
  have h := chunk_lines_reassembly [pyof "  hello  ", [], pyof "world"]
    (pyof "Summary")
  exact ⟨h.1 (by decide), h.2.2 (by decide)⟩

/-- C3: when chunking the collected lines with the `"Results"` prefix
yields `EMBED_MAX_FIELDS` (25) or more chunks, the reply keeps exactly
the first 10 chunks inline, appends exactly one `Note` field after them,
and attaches the full line list joined by newlines (UTF-8 encoding
followed by decoding being the identity on text). -/
theorem find_collabs_overflow_reply (lines : List PyStr)
    (h : EMBED_MAX_FIELDS ≤ (chunk_lines_into_fields lines (pyof "Results")).length) :
    (buildReply lines).fields =
      (chunk_lines_into_fields lines (pyof "Results")).take 10 ++
        [(pyof "Note", overflowNoteValue)] ∧
    (buildReply lines).fields.length = 11 ∧
    (buildReply lines).file = some (joinNL lines) := by
  have hk : min 10 (EMBED_MAX_FIELDS - 1) = 10 := by decide
  have hlen : 25 ≤ (chunk_lines_into_fields lines (pyof "Results")).length := h
  simp only [buildReply, hk]
  rw [if_pos h]
  refine ⟨rfl, ?_, rfl⟩
  simp only [List.length_append, List.length_take, List.length_singleton]
  omega

/-- 25 lines of 513 characters each: every line closes its own chunk, so
chunking yields 25 chunks. -/
def overflowLines : List PyStr := List.replicate 25 (List.replicate 513 'b')

set_option maxRecDepth 1000000 in
/-- Witness for C3 at a concrete overflowing input. -/
theorem find_collabs_overflow_reply_witness :
    (buildReply overflowLines).fields.length = 11 ∧
    (buildReply overflowLines).file = some (joinNL overflowLines) := by
  have h := find_collabs_overflow_reply overflowLines (by decide)
  exact ⟨h.2.1, h.2.2⟩

/-- A message in which user 7 is structurally mentioned. -/
def pingMsg : Message := ⟨[7], pyof "", pyof "url"⟩

/-- A channel whose history yields one mentioning message and then raises
a transport error. -/
def partialErrCh : Channel := ⟨42, [], fun _ _ => .err [pingMsg] .httpError⟩

/-- C2 counterexample: a channel scan whose history iteration raises does
NOT always return zero hits: hits collected before the error are kept, so
a transport error raised after a mentioning message was yielded produces
one hit. -/
theorem search_channel_error_zero_hits_counterexample :
    ¬ (∀ (ch : Channel) (uid : Nat) (after_dt : Option Nat) (pcl : Int),
        (∃ pre e, ch.history after_dt pcl = .err pre e) →
        search_channel_for_mentions ch uid after_dt pcl = []) := by
  intro hclaim
  have h := hclaim partialErrCh 7 none 200 ⟨[pingMsg], .httpError, rfl⟩
  have h2 : search_channel_for_mentions partialErrCh 7 none 200 = [pingMsg] := by
    decide
  rw [h2] at h
  exact List.cons_ne_nil _ _ h

/-- C2 (amended): a channel scan whose history iteration raises a
permission or transport error returns exactly the mention hits collected
before the error — zero when the error precedes the first yielded
message, as with a permission denial on first access — and such a channel
never aborts the scan of its sibling channels: with an immediately
erroring channel the `find_collabs` loop state is as if that channel were
absent. -/
theorem search_channel_error_semantics (ch : Channel) (uid : Nat)
    (after_dt : Option Nat) (pcl : Int) (inc : Bool) (pre : List Message)
    (e : ApiError) (h : ch.history after_dt pcl = .err pre e) :
    search_channel_for_mentions ch uid after_dt pcl =
      List.filter (mention_hit_spec uid) pre ∧
    (pre = [] → search_channel_for_mentions ch uid after_dt pcl = []) ∧
    (pre = [] →
      ∀ (cat : Category) (rest : List Channel) (st : ScanState) (hA : Bool),
        scanChannels uid after_dt pcl inc cat (ch :: rest) st hA =
          scanChannels uid after_dt pcl inc cat rest st hA) := by
  have h1 : search_channel_for_mentions ch uid after_dt pcl =
      List.filter (mention_hit_spec uid) pre := by
    unfold search_channel_for_mentions
    rw [h]
    simpa using collectChannelHits_acc uid pre []
  refine ⟨h1, fun hp => by simp [h1, hp], fun hp cat rest st hA => ?_⟩
  have h2 : search_channel_for_mentions ch uid after_dt pcl = [] := by
    simp [h1, hp]
  simp only [scanChannels, h2, List.isEmpty_nil, if_true]

/-- A channel whose history raises before yielding anything. -/
def emptyErrCh : Channel := ⟨43, [], fun _ _ => .err [] .forbidden⟩

/-- Witness for C2 at a concrete immediately-erroring channel. -/
theorem search_channel_error_semantics_witness :
    search_channel_for_mentions emptyErrCh 7 none 200 = [] :=
  (search_channel_error_semantics emptyErrCh 7 none 200 false []
    .forbidden rfl).2.1 rfl

lemma idPass_spec (g : Guild) :
    ∀ (ps : List PyStr) (seen : List Nat) (out : List Category),
      (∀ c ∈ out, c.id ∈ seen) →
      (List.map Category.id out).Nodup →
      (∀ c ∈ (idPass g ps seen out).2, c.id ∈ (idPass g ps seen out).1) ∧
      (List.map Category.id (idPass g ps seen out).2).Nodup ∧
      (∀ i ∈ seen, i ∈ (idPass g ps seen out).1) ∧
      ∃ ex, (idPass g ps seen out).2 = out ++ ex ∧
        ∀ c ∈ ex, ∃ p, p ∈ ps ∧ pyIsDigitStr p = true ∧
          g.get_channel (pyToNat p) = some (.category c) := by
  intro ps
  induction ps with
  | nil =>
    intro seen out h1 h2
    exact ⟨h1, h2, fun i hi => hi, [], by simp [idPass], by simp⟩
  | cons p ps ih =>
    intro seen out h1 h2
    have hunch : ∀ (hstep : idPass g (p :: ps) seen out = idPass g ps seen out),
        (∀ c ∈ (idPass g (p :: ps) seen out).2,
          c.id ∈ (idPass g (p :: ps) seen out).1) ∧
        (List.map Category.id (idPass g (p :: ps) seen out).2).Nodup ∧
        (∀ i ∈ seen, i ∈ (idPass g (p :: ps) seen out).1) ∧
        ∃ ex, (idPass g (p :: ps) seen out).2 = out ++ ex ∧
          ∀ c ∈ ex, ∃ q, q ∈ p :: ps ∧ pyIsDigitStr q = true ∧
            g.get_channel (pyToNat q) = some (.category c) := by
      intro hstep
      rw [hstep]
      obtain ⟨a1, a2, a3, ex, hex, hchar⟩ := ih seen out h1 h2
      refine ⟨a1, a2, a3, ex, hex, fun c hc => ?_⟩
      obtain ⟨q, hq, hq2, hq3⟩ := hchar c hc
      exact ⟨q, List.mem_cons_of_mem _ hq, hq2, hq3⟩
    by_cases hd : pyIsDigitStr p = true
    · cases hget : g.get_channel (pyToNat p) with
      | none => exact hunch (by simp [idPass, hd, hget])
      | some gc =>
        cases gc with
        | other i => exact hunch (by simp [idPass, hd, hget])
        | category c =>
          by_cases hseen : c.id ∈ seen
          · exact hunch (by simp [idPass, hd, hget, hseen])
          · have hstep : idPass g (p :: ps) seen out =
                idPass g ps (seen ++ [c.id]) (out ++ [c]) := by
              simp [idPass, hd, hget, hseen]
            rw [hstep]
            have hcid : c.id ∉ seen := hseen
            have h1' : ∀ c' ∈ out ++ [c], c'.id ∈ seen ++ [c.id] := by
              intro c' hc'
              rcases List.mem_append.mp hc' with hc' | hc'
              · exact List.mem_append_left _ (h1 c' hc')
              · rw [List.mem_singleton.mp hc']
                exact List.mem_append_right _ (List.mem_singleton.mpr rfl)
            have hnotin : c.id ∉ List.map Category.id out := by
              intro hmem
              obtain ⟨c', hc', hcideq⟩ := List.mem_map.mp hmem
              exact hcid (hcideq ▸ h1 c' hc')
            have h2' : (List.map Category.id (out ++ [c])).Nodup := by
              rw [List.map_append]
              refine List.Nodup.append h2 (List.nodup_singleton _) ?_
              intro x hx hx2
              rw [List.mem_singleton.mp hx2] at hx
              exact hnotin hx
            obtain ⟨a1, a2, a3, ex, hex, hchar⟩ :=
              ih (seen ++ [c.id]) (out ++ [c]) h1' h2'
            refine ⟨a1, a2,
              fun i hi => a3 i (List.mem_append_left _ hi),
              c :: ex, by simp [hex], fun c' hc' => ?_⟩
            rcases List.mem_cons.mp hc' with hc' | hc'
            · exact ⟨p, List.mem_cons_self _ _, hd, hc' ▸ hget⟩
            · obtain ⟨q, hq, hq2, hq3⟩ := hchar c' hc'
              exact ⟨q, List.mem_cons_of_mem _ hq, hq2, hq3⟩
    · exact hunch (by simp [idPass, hd])

lemma namePassCats_spec (p : PyStr) :
    ∀ (cs : List Category) (seen : List Nat) (out : List Category),
      (∀ c ∈ out, c.id ∈ seen) →
      (List.map Category.id out).Nodup →
      (∀ c ∈ (namePassCats p cs seen out).2, c.id ∈ (namePassCats p cs seen out).1) ∧
      (List.map Category.id (namePassCats p cs seen out).2).Nodup ∧
      (∀ i ∈ seen, i ∈ (namePassCats p cs seen out).1) ∧
      ∃ ex, (namePassCats p cs seen out).2 = out ++ ex ∧
        ∀ c ∈ ex, pyLower c.name = pyLower p := by
  intro cs
  induction cs with
  | nil =>
    intro seen out h1 h2
    exact ⟨h1, h2, fun i hi => hi, [], by simp [namePassCats], by simp⟩
  | cons c cs ih =>
    intro seen out h1 h2
    by_cases hname : pyLower c.name = pyLower p
    · by_cases hseen : c.id ∈ seen
      · have hstep : namePassCats p (c :: cs) seen out =
            namePassCats p cs seen out := by
          simp [namePassCats, hname, hseen]
        rw [hstep]
        exact ih seen out h1 h2
      · have hstep : namePassCats p (c :: cs) seen out =
            namePassCats p cs (seen ++ [c.id]) (out ++ [c]) := by
          simp [namePassCats, hname, hseen]
        rw [hstep]
        have h1' : ∀ c' ∈ out ++ [c], c'.id ∈ seen ++ [c.id] := by
          intro c' hc'
          rcases List.mem_append.mp hc' with hc' | hc'
          · exact List.mem_append_left _ (h1 c' hc')
          · rw [List.mem_singleton.mp hc']
            exact List.mem_append_right _ (List.mem_singleton.mpr rfl)
        have hnotin : c.id ∉ List.map Category.id out := by
          intro hmem
          obtain ⟨c', hc', hcideq⟩ := List.mem_map.mp hmem
          exact hseen (hcideq ▸ h1 c' hc')
        have h2' : (List.map Category.id (out ++ [c])).Nodup := by
          rw [List.map_append]
          refine List.Nodup.append h2 (List.nodup_singleton _) ?_
          intro x hx hx2
          rw [List.mem_singleton.mp hx2] at hx
          exact hnotin hx
        obtain ⟨a1, a2, a3, ex, hex, hchar⟩ :=
          ih (seen ++ [c.id]) (out ++ [c]) h1' h2'
        refine ⟨a1, a2, fun i hi => a3 i (List.mem_append_left _ hi),
          c :: ex, by simp [hex], fun c' hc' => ?_⟩
        rcases List.mem_cons.mp hc' with hc' | hc'
        · exact hc' ▸ hname
        · exact hchar c' hc'
    · have hstep : namePassCats p (c :: cs) seen out =
          namePassCats p cs seen out := by
        simp [namePassCats, hname]
      rw [hstep]
      exact ih seen out h1 h2

lemma namePass_spec (g : Guild) :
    ∀ (ps : List PyStr) (seen : List Nat) (out : List Category),
      (∀ c ∈ out, c.id ∈ seen) →
      (List.map Category.id out).Nodup →
      (List.map Category.id (namePass g ps seen out)).Nodup ∧
      ∃ ex, namePass g ps seen out = out ++ ex ∧
        ∀ c ∈ ex, ∃ p, p ∈ ps ∧ pyIsDigitStr p = false ∧
          pyLower c.name = pyLower p := by
  intro ps
  induction ps with
  | nil =>
    intro seen out h1 h2
    exact ⟨h2, [], by simp [namePass], by simp⟩
  | cons p ps ih =>
    intro seen out h1 h2
    by_cases hd : pyIsDigitStr p = true
    · have hstep : namePass g (p :: ps) seen out = namePass g ps seen out := by
        simp [namePass, hd]
      rw [hstep]
      obtain ⟨a1, ex, hex, hchar⟩ := ih seen out h1 h2
      refine ⟨a1, ex, hex, fun c hc => ?_⟩
      obtain ⟨q, hq, hq2, hq3⟩ := hchar c hc
      exact ⟨q, List.mem_cons_of_mem _ hq, hq2, hq3⟩
    · have hstep : namePass g (p :: ps) seen out =
          namePass g ps (namePassCats p g.categories seen out).1
            (namePassCats p g.categories seen out).2 := by
        simp [namePass, hd]
      rw [hstep]
      obtain ⟨b1, b2, b3, ex1, hex1, hchar1⟩ :=
        namePassCats_spec p g.categories seen out h1 h2
      obtain ⟨a1, ex2, hex2, hchar2⟩ :=
        ih (namePassCats p g.categories seen out).1
          (namePassCats p g.categories seen out).2 b1 b2
      refine ⟨a1, ex1 ++ ex2, by rw [hex2, hex1, List.append_assoc], fun c hc => ?_⟩
      rcases List.mem_append.mp hc with hc | hc
      · exact ⟨p, List.mem_cons_self _ _,
          Bool.not_eq_true _ ▸ eq_false_of_ne_true hd, hchar1 c hc⟩
      · obtain ⟨q, hq, hq2, hq3⟩ := hchar2 c hc
        exact ⟨q, List.mem_cons_of_mem _ hq, hq2, hq3⟩

/-- The spec's worked example: a category with the numeric id from the
spec string but a different name. -/
def devCategory : Category := ⟨123456789012345678, pyof "Dev", []⟩

/-- The spec's worked example: a category matching the name token. -/
def generalCategory : Category := ⟨99, pyof "General", []⟩

/-- The spec's worked example guild. -/
def exampleGuild : Guild :=
  ⟨[.category devCategory, .category generalCategory]⟩

/-- The spec's worked example spec string. -/
def exampleSpec : PyStr := pyof "123456789012345678, General"

/-- C5: the category resolver returns no category twice (deduplication by
category identity); its output is the id-pass matches followed by the
name-pass matches, so every category resolved from a purely numeric token
precedes every category resolved case-insensitively from a name token,
regardless of token order (the token list being the comma-split,
whitespace-trimmed, non-empty parts); an empty spec string yields an
empty result; and the spec's worked example resolves to
`[Dev, General]` in that order. -/
theorem parse_category_spec_contract (g : Guild) (spec : PyStr) :
    parse_category_spec g [] = [] ∧
    (List.map Category.id (parse_category_spec g spec)).Nodup ∧
    (∃ out2,
      parse_category_spec g spec = (idPass g (specParts spec) [] []).2 ++ out2 ∧
      (∀ c ∈ (idPass g (specParts spec) [] []).2,
        ∃ p, p ∈ specParts spec ∧ pyIsDigitStr p = true ∧
          g.get_channel (pyToNat p) = some (.category c)) ∧
      (∀ c ∈ out2,
        ∃ p, p ∈ specParts spec ∧ pyIsDigitStr p = false ∧
          pyLower c.name = pyLower p)) ∧
    parse_category_spec exampleGuild exampleSpec =
      [devCategory, generalCategory] := by
  obtain ⟨i1, i2, i3, ex0, hex0, hchar0⟩ :=
    idPass_spec g (specParts spec) [] [] (by simp) (by simp)
  obtain ⟨n1, ex, hex, hchar⟩ :=
    namePass_spec g (specParts spec) (idPass g (specParts spec) [] []).1
      (idPass g (specParts spec) [] []).2 i1 i2
  by_cases hempty : List.isEmpty spec = true
  · have hnil : spec = [] := by
      cases spec with
      | nil => rfl
      | cons a as => simp at hempty
    subst hnil
    refine ⟨rfl, by simp [parse_category_spec], ⟨[], by simp [parse_category_spec, idPass, specParts, pySplitChar, pyStrip], ?_, by simp⟩, rfl⟩
    intro c hc
    exact hchar0 c (by simpa [hex0] using hc)
  · have hpar : parse_category_spec g spec =
        namePass g (specParts spec) (idPass g (specParts spec) [] []).1
          (idPass g (specParts spec) [] []).2 := by
      simp [parse_category_spec, hempty]
    refine ⟨rfl, ?_, ⟨ex, ?_, ?_, fun c hc => hchar c hc⟩, rfl⟩
    · rw [hpar]; exact n1
    · rw [hpar]; exact hex
    · intro c hc
      exact hchar0 c (by simpa [hex0] using hc)

/-- Witness for C5 evaluated at the worked example. -/
theorem parse_category_spec_contract_witness :
    (List.map Category.id (parse_category_spec exampleGuild exampleSpec)).Nodup ∧
    parse_category_spec exampleGuild exampleSpec =
      [devCategory, generalCategory] := by
  have h := parse_category_spec_contract exampleGuild exampleSpec
  exact ⟨h.2.1, h.2.2.2⟩

/-- A channel with its threads removed (history and id unchanged). -/
def stripThreads (ch : Channel) : Channel := { ch with threads := [] }

/-- A category with every channel's threads removed. -/
def catStripThreads (cat : Category) : Category :=
  { cat with text_channels := List.map stripThreads cat.text_channels }

lemma scanChannels_no_threads (uid : Nat) (a : Option Nat) (pcl : Int)
    (cat : Category) :
    ∀ (chs : List Channel) (st : ScanState) (hA : Bool),
      scanChannels uid a pcl false (catStripThreads cat)
          (List.map stripThreads chs) st hA =
        scanChannels uid a pcl false cat chs st hA := by
  intro chs
  induction chs with
  | nil => intro st hA; rfl
  | cons ch chs ih =>
    intro st hA
    simp only [List.map_cons, scanChannels, ih]
    rfl

lemma scanCats_no_threads (uid : Nat) (a : Option Nat) (pcl : Int) :
    ∀ (cats : List Category) (st : ScanState),
      scanCats uid a pcl false (List.map catStripThreads cats) st =
        scanCats uid a pcl false cats st := by
  intro cats
  induction cats with
  | nil => intro st; rfl
  | cons cat cats ih =>
    intro st
    simp only [List.map_cons, scanCats]
    rw [show (catStripThreads cat).text_channels =
      List.map stripThreads cat.text_channels from rfl]
    rw [scanChannels_no_threads uid a pcl cat cat.text_channels st false]
    simp only [ih]

/-- A thread whose history has hits only when queried with `limit = 100`:
it makes the thread-limit argument observable. -/
def gateTh : Thread :=
  ⟨501, false, fun _ l => if l = 100 then .ok [pingMsg] else .ok []⟩

/-- A channel with one direct hit and the limit-observing thread. -/
def gateCh : Channel := ⟨301, [gateTh], fun _ _ => .ok [pingMsg]⟩

/-- A category holding `gateCh`. -/
def gateCat : Category := ⟨201, pyof "Dev", [gateCh]⟩

/-- C9: (a) a channel whose own scan has no hits contributes nothing at
all — its threads are never consulted, even with `include_threads` on;
(b) with `include_threads` off the whole collection is unchanged when
every thread of every channel is removed, so threads are never consulted;
(c) with `include_threads` on and `per_channel_limit = 200`, a channel
with a direct hit gets its thread scanned at limit
`min(per_channel_limit, 100) = 100`: the gate thread (hits only at
limit 100) appears in the output lines. -/
theorem find_collabs_thread_gating (uid : Nat) (a : Option Nat) (pcl : Int)
    (inc : Bool) (cat : Category) (ch : Channel) (rest : List Channel)
    (st : ScanState) (hA : Bool) (cats : List Category) (st' : ScanState) :
    (search_channel_for_mentions ch uid a pcl = [] →
      scanChannels uid a pcl inc cat (ch :: rest) st hA =
        scanChannels uid a pcl inc cat rest st hA) ∧
    scanCats uid a pcl false (List.map catStripThreads cats) st' =
      scanCats uid a pcl false cats st' ∧
    (scanCats 7 none 200 true [gateCat] initialScanState).lines =
      [catHeaderLine gateCat, channelLine gateCh [pingMsg],
        threadLine gateTh [pingMsg]] := by
  refine ⟨fun hz => ?_, scanCats_no_threads uid a pcl cats st', by rfl⟩
  simp only [scanChannels, hz, List.isEmpty_nil, if_true]

/-- Witness for C9: a hitless channel (with a hit-bearing thread)
contributes nothing. -/
def noHitCh : Channel := ⟨302, [gateTh], fun _ _ => .ok []⟩

/-- Witness for C9 at a concrete hitless channel. -/
theorem find_collabs_thread_gating_witness :
    scanChannels 7 none 200 true gateCat [noHitCh] initialScanState false =
      scanChannels 7 none 200 true gateCat [] initialScanState false := by
  have h := find_collabs_thread_gating 7 none 200 true gateCat noHitCh []
    initialScanState false [] initialScanState
  exact h.1 rfl

lemma catHeaderLine_ne_truncNote (cat : Category) :
    catHeaderLine cat ≠ truncNote := by
  intro h
  have h2 : (catHeaderLine cat).head? = truncNote.head? := congrArg List.head? h
  rw [show (catHeaderLine cat).head? = some '*' from rfl,
    show truncNote.head? = some '_' from rfl] at h2
  exact absurd h2 (by decide)

lemma channelLine_ne_truncNote (ch : Channel) (hits : List Message) :
    channelLine ch hits ≠ truncNote := by
  intro h
  have h2 : (channelLine ch hits).head? = truncNote.head? := congrArg List.head? h
  rw [show (channelLine ch hits).head? = some 'â' from rfl,
    show truncNote.head? = some '_' from rfl] at h2
  exact absurd h2 (by decide)

lemma threadLine_ne_truncNote (th : Thread) (msgs : List Message) :
    threadLine th msgs ≠ truncNote := by
  intro h
  have h2 : (threadLine th msgs).head? = truncNote.head? := congrArg List.head? h
  rw [show (threadLine th msgs).head? = some ' ' from rfl,
    show truncNote.head? = some '_' from rfl] at h2
  exact absurd h2 (by decide)

lemma count_note_headerline (cat : Category) :
    List.count truncNote [catHeaderLine cat] = 0 :=
  List.count_eq_zero.mpr
    (fun hm => catHeaderLine_ne_truncNote cat (List.mem_singleton.mp hm).symm)

lemma count_note_chanline (ch : Channel) (hits : List Message) :
    List.count truncNote [channelLine ch hits] = 0 :=
  List.count_eq_zero.mpr
    (fun hm => channelLine_ne_truncNote ch hits (List.mem_singleton.mp hm).symm)

lemma count_note_threadlines (trs : List (Thread × List Message)) :
    List.count truncNote (List.map (fun p => threadLine p.1 p.2) trs) = 0 := by
  refine List.count_eq_zero.mpr (fun hm => ?_)
  obtain ⟨p, _, hp⟩ := List.mem_map.mp hm
  exact threadLine_ne_truncNote p.1 p.2 hp

lemma count_note_headerite (hA : Bool) (cat : Category) :
    List.count truncNote
      (if hA then ([] : List PyStr) else [catHeaderLine cat]) = 0 := by
  cases hA
  · simp [count_note_headerline]
  · simp

lemma headerline_beq_truncNote (cat : Category) :
    (catHeaderLine cat == truncNote) = false :=
  beq_eq_false_iff_ne.mpr (catHeaderLine_ne_truncNote cat)

lemma chanline_beq_truncNote (ch : Channel) (hits : List Message) :
    (channelLine ch hits == truncNote) = false :=
  beq_eq_false_iff_ne.mpr (channelLine_ne_truncNote ch hits)

lemma scanChannels_truncation (uid : Nat) (a : Option Nat) (pcl : Int)
    (inc : Bool) (cat : Category) :
    ∀ (chs : List Channel) (st : ScanState) (hA : Bool),
      st.lines.length < MAX_LINES → List.count truncNote st.lines = 0 →
      ((scanChannels uid a pcl inc cat chs st hA).2 = false ∧
        (scanChannels uid a pcl inc cat chs st hA).1.lines.length < MAX_LINES ∧
        List.count truncNote
          (scanChannels uid a pcl inc cat chs st hA).1.lines = 0) ∨
      ((scanChannels uid a pcl inc cat chs st hA).2 = true ∧
        ∃ pre, (scanChannels uid a pcl inc cat chs st hA).1.lines =
            pre ++ [truncNote] ∧
          List.count truncNote pre = 0 ∧
          MAX_LINES ≤ (scanChannels uid a pcl inc cat chs st hA).1.lines.length) := by
  intro chs
  induction chs with
  | nil =>
    intro st hA hlen hcount
    exact Or.inl ⟨rfl, hlen, hcount⟩
  | cons ch chs ih =>
    intro st hA hlen hcount
    cases inc with
    | false =>
      simp only [scanChannels, Bool.false_eq_true, if_false]
      split
      · exact ih st hA hlen hcount
      · rename_i hne
        split <;> split
        all_goals
          first
          | (rename_i hcap
             refine Or.inr ⟨rfl, _, rfl, ?_, ?_⟩
             · simp [List.count_append, List.count_cons, hcount,
                 headerline_beq_truncNote, chanline_beq_truncNote]
             · simp only [List.length_append, List.length_singleton,
                 List.length_nil] at hcap ⊢
               omega)
          | (rename_i hcap
             refine ih _ true (Nat.not_le.mp hcap) ?_
             simp [List.count_append, List.count_cons, hcount,
               headerline_beq_truncNote, chanline_beq_truncNote])
    | true =>
      simp only [scanChannels, if_true]
      split
      · exact ih st hA hlen hcount
      · rename_i hne
        split <;> split
        all_goals
          first
          | (rename_i hcap
             refine Or.inr ⟨rfl, _, rfl, ?_, ?_⟩
             · simp [List.count_append, List.count_cons, hcount,
                 headerline_beq_truncNote, chanline_beq_truncNote,
                 count_note_threadlines]
             · simp only [List.length_append, List.length_singleton,
                 List.length_nil] at hcap ⊢
               omega)
          | (rename_i hcap
             refine ih _ true (Nat.not_le.mp hcap) ?_
             simp [List.count_append, List.count_cons, hcount,
               headerline_beq_truncNote, chanline_beq_truncNote,
               count_note_threadlines])

lemma scanCats_truncation (uid : Nat) (a : Option Nat) (pcl : Int)
    (inc : Bool) :
    ∀ (cats : List Category) (st : ScanState),
      st.lines.length < MAX_LINES → List.count truncNote st.lines = 0 →
      ((scanCats uid a pcl inc cats st).lines.length < MAX_LINES ∧
        List.count truncNote (scanCats uid a pcl inc cats st).lines = 0) ∨
      (∃ pre, (scanCats uid a pcl inc cats st).lines = pre ++ [truncNote] ∧
        List.count truncNote pre = 0 ∧
        MAX_LINES ≤ (scanCats uid a pcl inc cats st).lines.length) := by
  intro cats
  induction cats with
  | nil =>
    intro st hlen hcount
    exact Or.inl ⟨hlen, hcount⟩
  | cons cat cats ih =>
    intro st hlen hcount
    simp only [scanCats]
    rcases scanChannels_truncation uid a pcl inc cat cat.text_channels st false
        hlen hcount with ⟨_, hl, hc⟩ | ⟨_, pre, hp, hpc, hl⟩
    · rw [if_neg (Nat.not_le.mpr hl)]
      exact ih _ hl hc
    · rw [if_pos hl]
      exact Or.inr ⟨pre, hp, hpc, hl⟩

lemma scanCats_stop (uid : Nat) (a : Option Nat) (pcl : Int) (inc : Bool) :
    ∀ (cats₁ cats₂ : List Category) (st : ScanState),
      st.lines.length < MAX_LINES →
      MAX_LINES ≤ (scanCats uid a pcl inc cats₁ st).lines.length →
      scanCats uid a pcl inc (cats₁ ++ cats₂) st =
        scanCats uid a pcl inc cats₁ st := by
  intro cats₁
  induction cats₁ with
  | nil =>
    intro cats₂ st hlt hge
    exact absurd hge (Nat.not_le.mpr hlt)
  | cons cat cats ih =>
    intro cats₂ st hlt hge
    simp only [List.cons_append, scanCats] at hge ⊢
    by_cases hcap : MAX_LINES ≤
        (scanChannels uid a pcl inc cat cat.text_channels st false).1.lines.length
    · rw [if_pos hcap]
      rw [if_pos hcap]
    · rw [if_neg hcap] at hge
      rw [if_neg hcap, if_neg hcap]
      exact ih cats₂ _ (Nat.not_le.mp hcap) hge

/-- C10: starting from the empty collection state of `find_collabs`,
(a) the truncation note appears at most once in the collected lines;
(b) if scanning a prefix of the category list already yields 40 or more
lines, scanning any extension of that prefix produces the identical
state — no later category or channel is reflected; (c) whenever the
final line list has 40 or more lines it consists of note-free lines
followed by exactly one trailing truncation note. -/
theorem find_collabs_truncation (uid : Nat) (a : Option Nat) (pcl : Int)
    (inc : Bool) (cats₁ cats₂ : List Category) :
    List.count truncNote
        (scanCats uid a pcl inc (cats₁ ++ cats₂) initialScanState).lines ≤ 1 ∧
    (MAX_LINES ≤ (scanCats uid a pcl inc cats₁ initialScanState).lines.length →
      scanCats uid a pcl inc (cats₁ ++ cats₂) initialScanState =
        scanCats uid a pcl inc cats₁ initialScanState) ∧
    (MAX_LINES ≤
        (scanCats uid a pcl inc (cats₁ ++ cats₂) initialScanState).lines.length →
      ∃ pre, (scanCats uid a pcl inc (cats₁ ++ cats₂) initialScanState).lines =
          pre ++ [truncNote] ∧ List.count truncNote pre = 0) := by
  have h0len : initialScanState.lines.length < MAX_LINES := by
    simp [initialScanState, MAX_LINES]
  have h0c : List.count truncNote initialScanState.lines = 0 := rfl
  refine ⟨?_,
    fun hge => scanCats_stop uid a pcl inc cats₁ cats₂ initialScanState h0len hge,
    fun hge => ?_⟩
  · rcases scanCats_truncation uid a pcl inc (cats₁ ++ cats₂) initialScanState
        h0len h0c with ⟨_, hc⟩ | ⟨pre, hp, hpc, _⟩
    · simp [hc]
    · rw [hp]
      simp [List.count_append, List.count_cons, hpc]
  · rcases scanCats_truncation uid a pcl inc (cats₁ ++ cats₂) initialScanState
        h0len h0c with ⟨hlt, _⟩ | ⟨pre, hp, hpc, _⟩
    · exact absurd hge (Nat.not_le.mpr hlt)
    · exact ⟨pre, hp, hpc⟩

/-- A channel with a single directly mentioning message and no threads. -/
def simpleCh : Channel := ⟨303, [], fun _ _ => .ok [pingMsg]⟩

/-- A category holding `simpleCh`: each such category contributes two
lines (header and channel summary). -/
def simpleCat : Category := ⟨202, pyof "C", [simpleCh]⟩

set_option maxRecDepth 100000 in
/-- Witness for C10: twenty two-line categories reach the 40-line cap, so
appending one more category leaves the scan state untouched. -/
theorem find_collabs_truncation_witness :
    scanCats 7 none 200 false (List.replicate 20 simpleCat ++ [simpleCat])
        initialScanState =
      scanCats 7 none 200 false (List.replicate 20 simpleCat)
        initialScanState := by
  have h := find_collabs_truncation 7 none 200 false
    (List.replicate 20 simpleCat) [simpleCat]
  exact h.2.1 (by decide)
